import Mathlib

/-!
Verification of the wwm-midi-player core against its natural-language
specification.  The definitions below are a shallow embedding of the
Python source: `Worker.__build_tempo_map`, `Worker.__find_max_end_tick`,
`Worker.__ticks_to_seconds`, `Worker.__add_note`,
`Worker.__flush_tick_events` and `Worker.run` from src/app.py, and the
note-to-key machinery from src/wwm_macro.py and src/src/utils/wwm_macro.py.
MIDI quantities (ticks, tempi, pitches, velocities) are natural numbers;
pitches fed to the register mapper are integers, as in the source; the
floating-point arithmetic of the source is modelled by exact rationals.
-/

/-- One decoded MIDI message, as consumed by the Worker: its mido type
string, note, velocity, per-track delta time in ticks, and tempo payload
(meaningful only for set_tempo messages). -/
structure Msg where
  type : String
  note : Nat
  velocity : Nat
  time : Nat
  tempo : Nat
deriving DecidableEq

/-- Python dict assignment d[k] = v on an insertion-ordered association
list: replaces the value in place if the key is present, appends otherwise. -/
def dictInsert {α β : Type} [DecidableEq α] : List (α × β) → α → β → List (α × β)
  | [], k, v => [(k, v)]
  | (k', v') :: rest, k, v =>
      if k = k' then (k, v) :: rest else (k', v') :: dictInsert rest k v

/-- Python dict lookup d.get(k) on an association list built by dictInsert. -/
def dictGet {α β : Type} [DecidableEq α] : List (α × β) → α → Option β
  | [], _ => none
  | (k', v') :: rest, k => if k = k' then some v' else dictGet rest k

/-- Building a Python dict from a list of key-value pairs in iteration
order, as in the clean_tempo_map loop of Worker.__build_tempo_map. -/
def dictOfList {α β : Type} [DecidableEq α] (l : List (α × β)) : List (α × β) :=
  l.foldl (fun d p => dictInsert d p.1 p.2) []

/-- The value of the last pair of the list carrying the given key, if any:
the reference semantics of repeated dict assignment in iteration order. -/
def lastWrite {α β : Type} [DecidableEq α] : List (α × β) → α → Option β
  | [], _ => none
  | (k', v') :: rest, k =>
      match lastWrite rest k with
      | some v => some v
      | none => if k = k' then some v' else none

/-- Ordering of tempo-map entries by absolute tick, used to model the
sorted(...) call of Worker.__build_tempo_map.  The dict keys are distinct,
so sorting pairs by key alone coincides with the lexicographic pair sort
Python performs. -/
def keyLE (a b : Nat × Nat) : Prop := a.1 ≤ b.1

instance : DecidableRel keyLE := fun a b => Nat.decLe a.1 b.1

instance : IsTotal (Nat × Nat) keyLE := ⟨fun a b => Nat.le_total a.1 b.1⟩

instance : IsTrans (Nat × Nat) keyLE := ⟨fun _ _ _ => Nat.le_trans⟩

/-- The (absolute tick, tempo) pairs appended by the per-track loops of
Worker.__build_tempo_map: each track accumulates its own absolute tick
position and contributes one pair per set_tempo message, in source order. -/
def tempo_events (tracks : List (List Msg)) : List (Nat × Nat) :=
  tracks.flatMap (fun track =>
    (track.foldl
      (fun (st : Nat × List (Nat × Nat)) msg =>
        let abs_ticks := st.1 + msg.time
        (abs_ticks,
         if msg.type == "set_tempo" then st.2 ++ [(abs_ticks, msg.tempo)] else st.2))
      (0, [])).2)

/-- Worker.__build_tempo_map: seed (0, 500000), append every tempo event,
collapse duplicate ticks through a dict (last write wins), return the
entries sorted by tick. -/
def build_tempo_map (tracks : List (List Msg)) : List (Nat × Nat) :=
  let tempo_map : List (Nat × Nat) := (0, 500000) :: tempo_events tracks
  let clean_tempo_map := dictOfList tempo_map
  List.insertionSort keyLE clean_tempo_map

theorem dictGet_dictInsert {α β : Type} [DecidableEq α]
    (d : List (α × β)) (k : α) (v : β) (k'' : α) :
    dictGet (dictInsert d k v) k'' = if k'' = k then some v else dictGet d k'' := by
  induction d with
  | nil => simp [dictInsert, dictGet]
  | cons p rest ih =>
      obtain ⟨k', v'⟩ := p
      by_cases hk : k = k'
      · subst hk
        by_cases h2 : k'' = k <;> simp [dictInsert, dictGet, h2]
      · by_cases h2 : k'' = k'
        · subst h2
          simp [dictInsert, dictGet, hk, Ne.symm hk]
        · simp [dictInsert, dictGet, hk, h2, ih]

theorem dictGet_foldl {α β : Type} [DecidableEq α]
    (l : List (α × β)) (k : α) :
    ∀ d : List (α × β),
      dictGet (l.foldl (fun d p => dictInsert d p.1 p.2) d) k =
        match lastWrite l k with
        | some v => some v
        | none => dictGet d k := by
  induction l with
  | nil => intro d; simp [lastWrite]
  | cons p rest ih =>
      intro d
      simp only [List.foldl_cons]
      rw [ih]
      cases hrest : lastWrite rest k with
      | some v => simp [lastWrite, hrest]
      | none =>
          rw [dictGet_dictInsert]
          by_cases hk : k = p.1
          · subst hk
            simp [lastWrite, hrest]
          · simp [lastWrite, hrest, hk]

theorem dictGet_dictOfList {α β : Type} [DecidableEq α]
    (l : List (α × β)) (k : α) :
    dictGet (dictOfList l) k = lastWrite l k := by
  rw [dictOfList, dictGet_foldl]
  cases lastWrite l k <;> simp [dictGet]

theorem mem_of_dictGet {α β : Type} [DecidableEq α] :
    ∀ (l : List (α × β)) (k : α) (v : β), dictGet l k = some v → (k, v) ∈ l := by
  intro l
  induction l with
  | nil => intro k v h; simp [dictGet] at h
  | cons p rest ih =>
      intro k v h
      obtain ⟨k', v'⟩ := p
      by_cases hk : k = k'
      · subst hk
        simp [dictGet] at h
        simp [h]
      · simp [dictGet, hk] at h
        exact List.mem_cons_of_mem _ (ih k v h)

theorem mem_keys_dictInsert {α β : Type} [DecidableEq α]
    (d : List (α × β)) (k : α) (v : β) (a : α) :
    a ∈ (dictInsert d k v).map Prod.fst ↔ a ∈ d.map Prod.fst ∨ a = k := by
  induction d with
  | nil => simp [dictInsert]
  | cons p rest ih =>
      obtain ⟨k', v'⟩ := p
      by_cases hk : k = k'
      · subst hk
        simp [dictInsert]
        tauto
      · simp [dictInsert, hk, ih]
        tauto

theorem nodup_keys_dictInsert {α β : Type} [DecidableEq α]
    (d : List (α × β)) (k : α) (v : β)
    (h : (d.map Prod.fst).Nodup) : ((dictInsert d k v).map Prod.fst).Nodup := by
  induction d with
  | nil => simp [dictInsert]
  | cons p rest ih =>
      obtain ⟨k', v'⟩ := p
      simp only [List.map_cons, List.nodup_cons] at h
      by_cases hk : k = k'
      · subst hk
        simpa [dictInsert] using h
      · simp only [dictInsert, if_neg hk, List.map_cons, List.nodup_cons]
        constructor
        · rw [mem_keys_dictInsert]
          push_neg
          exact ⟨h.1, fun hkk => hk (hkk.symm)⟩
        · exact ih h.2

theorem nodup_keys_dictOfList {α β : Type} [DecidableEq α] (l : List (α × β)) :
    ((dictOfList l).map Prod.fst).Nodup := by
  suffices h : ∀ d : List (α × β), (d.map Prod.fst).Nodup →
      ((l.foldl (fun d p => dictInsert d p.1 p.2) d).map Prod.fst).Nodup by
    exact h [] (by simp)
  induction l with
  | nil => intro d hd; simpa using hd
  | cons p rest ih =>
      intro d hd
      simp only [List.foldl_cons]
      exact ih _ (nodup_keys_dictInsert d p.1 p.2 hd)

theorem dictGet_of_mem_of_nodup {α β : Type} [DecidableEq α] :
    ∀ (l : List (α × β)), ((l.map Prod.fst).Nodup) →
      ∀ (k : α) (v : β), (k, v) ∈ l → dictGet l k = some v := by
  intro l
  induction l with
  | nil => intro _ k v h; simp at h
  | cons p rest ih =>
      intro hnd k v h
      obtain ⟨k', v'⟩ := p
      simp only [List.map_cons, List.nodup_cons] at hnd
      rcases List.mem_cons.mp h with heq | hmem
      · rw [Prod.mk.injEq] at heq
        obtain ⟨h1, h2⟩ := heq
        subst h1; subst h2
        simp [dictGet]
      · have hk : k ≠ k' := by
          intro hkk
          subst hkk
          exact hnd.1 (List.mem_map.mpr ⟨(k, v), hmem, rfl⟩)
        simp [dictGet, hk]
        exact ih hnd.2 k v hmem

theorem lastWrite_eq_none {α β : Type} [DecidableEq α] :
    ∀ (l : List (α × β)) (k : α), (∀ p ∈ l, p.1 ≠ k) → lastWrite l k = none := by
  intro l
  induction l with
  | nil => intro k _; rfl
  | cons p rest ih =>
      intro k h
      have hp : p.1 ≠ k := h p (List.mem_cons_self p rest)
      have hrest := ih k (fun q hq => h q (List.mem_cons_of_mem p hq))
      have hk : ¬ k = p.1 := fun hkk => hp hkk.symm
      simp [lastWrite, hrest, hk]

theorem mem_build_tempo_map (tracks : List (List Msg)) (p : Nat × Nat) :
    p ∈ build_tempo_map tracks ↔ p ∈ dictOfList ((0, 500000) :: tempo_events tracks) := by
  simp [build_tempo_map, List.mem_insertionSort]

theorem nodup_keys_build_tempo_map (tracks : List (List Msg)) :
    ((build_tempo_map tracks).map Prod.fst).Nodup := by
  have hperm := (List.perm_insertionSort keyLE
    (dictOfList ((0, 500000) :: tempo_events tracks))).map Prod.fst
  exact hperm.nodup_iff.mpr (nodup_keys_dictOfList _)

/-- C1: for every list of input tracks, the tempo map built by
Worker.__build_tempo_map is sorted strictly ascending by absolute tick,
contains an entry at tick 0, and that entry carries 500000 microseconds
per beat whenever no tempo event of the input occurs at tick 0. -/
theorem tempo_map_sorted_seeded (tracks : List (List Msg)) :
    (build_tempo_map tracks).Pairwise (fun a b => a.1 < b.1)
    ∧ (∃ v, (0, v) ∈ build_tempo_map tracks)
    ∧ ((∀ p ∈ tempo_events tracks, p.1 ≠ 0) →
        (0, 500000) ∈ build_tempo_map tracks) := by
  refine ⟨?_, ?_, ?_⟩
  · have hsorted : (build_tempo_map tracks).Pairwise keyLE :=
      List.sorted_insertionSort keyLE _
    have hne : (build_tempo_map tracks).Pairwise (fun a b => a.1 ≠ b.1) :=
      List.pairwise_map.mp (nodup_keys_build_tempo_map tracks)
    exact (hsorted.and hne).imp (fun h => lt_of_le_of_ne h.1 h.2)
  · have h : dictGet (dictOfList ((0, 500000) :: tempo_events tracks)) 0 =
        lastWrite ((0, 500000) :: tempo_events tracks) 0 :=
      dictGet_dictOfList _ _
    cases hl : lastWrite (tempo_events tracks) 0 with
    | some v =>
        refine ⟨v, (mem_build_tempo_map tracks (0, v)).mpr ?_⟩
        exact mem_of_dictGet _ _ _ (by rw [h]; simp [lastWrite, hl])
    | none =>
        refine ⟨500000, (mem_build_tempo_map tracks (0, 500000)).mpr ?_⟩
        exact mem_of_dictGet _ _ _ (by rw [h]; simp [lastWrite, hl])
  · intro h0
    have hl : lastWrite (tempo_events tracks) 0 = none :=
      lastWrite_eq_none _ _ h0
    refine (mem_build_tempo_map tracks (0, 500000)).mpr ?_
    exact mem_of_dictGet _ _ _
      (by rw [dictGet_dictOfList]; simp [lastWrite, hl])

/-- Witness for C1 on a concrete one-track input with no tempo event:
the built tempo map contains the seeded default entry (0, 500000). -/
theorem tempo_map_sorted_seeded_witness :
    (0, 500000) ∈ build_tempo_map [[⟨"note_on", 60, 90, 10, 0⟩]] :=
  (tempo_map_sorted_seeded [[⟨"note_on", 60, 90, 10, 0⟩]]).2.2 (by decide)

/-- C6: an entry (t, v) is in the built tempo map exactly when v is the
value of the last tempo write at tick t in source iteration order, the
seeded default (0, 500000) counting as the first write: duplicate ticks
collapse to the last value written. -/
theorem tempo_map_last_write_wins (tracks : List (List Msg)) (t v : Nat) :
    (t, v) ∈ build_tempo_map tracks ↔
      lastWrite ((0, 500000) :: tempo_events tracks) t = some v := by
  rw [mem_build_tempo_map]
  constructor
  · intro h
    rw [← dictGet_dictOfList]
    exact dictGet_of_mem_of_nodup _ (nodup_keys_dictOfList _) _ _ h
  · intro h
    exact mem_of_dictGet _ _ _ (by rw [dictGet_dictOfList]; exact h)

/-- Witness for C6 on a concrete input where two tempo events share tick 0:
the later one in source order (400000) wins, overriding both the seeded
default and the earlier event. -/
theorem tempo_map_last_write_wins_witness :
    (0, 400000) ∈
      build_tempo_map [[⟨"set_tempo", 0, 0, 0, 300000⟩, ⟨"set_tempo", 0, 0, 0, 400000⟩]] :=
  (tempo_map_last_write_wins
    [[⟨"set_tempo", 0, 0, 0, 300000⟩, ⟨"set_tempo", 0, 0, 0, 400000⟩]] 0 400000).mpr
    (by decide)

/-- The inner per-track loop of Worker.__find_max_end_tick: accumulate the
absolute tick over every message and record whether any note_on or
note_off message was seen. -/
def scanTrack (track : List Msg) : Nat × Bool :=
  track.foldl
    (fun (st : Nat × Bool) msg =>
      (st.1 + msg.time, st.2 || (msg.type == "note_on" || msg.type == "note_off")))
    (0, false)

/-- Worker.__find_max_end_tick: the maximum, over tracks that contain at
least one note message, of the track total accumulated tick. -/
def find_max_end_tick (tracks : List (List Msg)) : Nat :=
  tracks.foldl
    (fun max_end_tick track =>
      let st := scanTrack track
      if st.2 then max max_end_tick st.1 else max_end_tick)
    0

/-- The total tick length of a track: the sum of all message deltas,
including any messages after the last note. -/
def trackEndTick (track : List Msg) : Nat :=
  track.foldl (fun acc msg => acc + msg.time) 0

/-- Whether a track contains at least one note_on or note_off message. -/
def trackHasNotes (track : List Msg) : Bool :=
  track.any (fun msg => msg.type == "note_on" || msg.type == "note_off")

/-- Modelled from the spec: the highest absolute tick carrying a note_on
or note_off event, across all tracks, which section 4.2 describes as the
input of the duration estimator.  This is the quantity the claim asserts
Worker.__find_max_end_tick computes. -/
def maxNoteTick (tracks : List (List Msg)) : Nat :=
  tracks.foldl
    (fun best track =>
      ((track.foldl
        (fun (st : Nat × List Nat) msg =>
          let abs_ticks := st.1 + msg.time
          (abs_ticks,
           if msg.type == "note_on" || msg.type == "note_off"
           then st.2 ++ [abs_ticks] else st.2))
        (0, [])).2).foldl max best)
    0

theorem scanTrack_eq (track : List Msg) :
    scanTrack track = (trackEndTick track, trackHasNotes track) := by
  suffices h : ∀ (a : Nat) (b : Bool),
      track.foldl
        (fun (st : Nat × Bool) msg =>
          (st.1 + msg.time, st.2 || (msg.type == "note_on" || msg.type == "note_off")))
        (a, b)
      = (track.foldl (fun acc msg => acc + msg.time) a,
         b || track.any (fun msg => msg.type == "note_on" || msg.type == "note_off")) by
    simpa [scanTrack, trackEndTick, trackHasNotes] using h 0 false
  induction track with
  | nil => intro a b; simp
  | cons m rest ih =>
      intro a b
      simp only [List.foldl_cons, List.any_cons, ih, Bool.or_assoc]

/-- Counterexample to C5: in a track whose note_on sits at absolute tick
10 but which ends with a non-note message five ticks later,
Worker.__find_max_end_tick returns the track end tick 15, not the highest
tick carrying a note event, which is 10. -/
theorem find_max_end_tick_counterexample :
    find_max_end_tick [[⟨"note_on", 60, 90, 10, 0⟩, ⟨"end_of_track", 0, 0, 5, 0⟩]] = 15
    ∧ maxNoteTick [[⟨"note_on", 60, 90, 10, 0⟩, ⟨"end_of_track", 0, 0, 5, 0⟩]] = 10
    ∧ find_max_end_tick [[⟨"note_on", 60, 90, 10, 0⟩, ⟨"end_of_track", 0, 0, 5, 0⟩]]
        ≠ maxNoteTick [[⟨"note_on", 60, 90, 10, 0⟩, ⟨"end_of_track", 0, 0, 5, 0⟩]] := by
  refine ⟨by decide, by decide, by decide⟩

/-- C5 amended: Worker.__find_max_end_tick returns the maximum, over the
tracks that contain at least one note_on or note_off message, of the
track total accumulated tick (the sum of all message deltas, trailing
non-note messages included); tracks without note messages contribute
nothing to the maximum. -/
theorem find_max_end_tick_eq_filtered_max (tracks : List (List Msg)) :
    find_max_end_tick tracks =
      (((tracks.filter trackHasNotes).map trackEndTick).foldl max 0) := by
  have key : ∀ (ts : List (List Msg)) (acc : Nat),
      ts.foldl
        (fun max_end_tick track =>
          if trackHasNotes track then max max_end_tick (trackEndTick track)
          else max_end_tick)
        acc
      = ((ts.filter trackHasNotes).map trackEndTick).foldl max acc := by
    intro ts
    induction ts with
    | nil => intro acc; rfl
    | cons t rest ih =>
        intro acc
        cases ht : trackHasNotes t with
        | true => simp [List.filter_cons, ht, ih]
        | false => simp [List.filter_cons, ht, ih]
  simp only [find_max_end_tick, scanTrack_eq]
  exact key tracks 0

/-- mido.tick2second: tick * (tempo * 1e-6 / ticks_per_beat), the
floating-point arithmetic modelled by exact rationals. -/
def tick2second (tick : Nat) (ticks_per_beat : Nat) (tempo : Nat) : ℚ :=
  (tick : ℚ) * ((tempo : ℚ) * (1 / 1000000) / (ticks_per_beat : ℚ))

/-- The segment walk of Worker.__ticks_to_seconds: accumulate the seconds
of each tempo segment clipped at max_end_tick, returning early once the
target tick is reached, then account for a clipped final segment under the
final tempo. -/
def walk_segments (ticks_per_beat : Nat) (max_end_tick : Nat) :
    Nat → Nat → List (Nat × Nat) → ℚ
  | previous_tick, previous_tempo, [] =>
      if previous_tick < max_end_tick
      then tick2second (max_end_tick - previous_tick) ticks_per_beat previous_tempo
      else 0
  | previous_tick, previous_tempo, (tick, tempo) :: rest =>
      let segment_end := min max_end_tick tick
      let seg :=
        if previous_tick < segment_end
        then tick2second (segment_end - previous_tick) ticks_per_beat previous_tempo
        else 0
      let previous_tick' := if previous_tick < segment_end then segment_end else previous_tick
      if max_end_tick ≤ tick then seg
      else seg + walk_segments ticks_per_beat max_end_tick previous_tick' tempo rest

/-- Worker.__ticks_to_seconds, taking ticks_per_beat directly instead of
the mido file object.  The source indexes tempo_map[0] and would raise on
an empty map; the builder always seeds the map, so the nil case returning
0 is unreachable on real inputs. -/
def ticks_to_seconds (ticks_per_beat : Nat) (max_end_tick : Nat)
    (tempo_map : List (Nat × Nat)) : ℚ :=
  match tempo_map with
  | [] => 0
  | (previous_tick, previous_tempo) :: rest =>
      walk_segments ticks_per_beat max_end_tick previous_tick previous_tempo rest

/-- C2: on a tempo map with the single segment (0, T) and last note tick
N with P ticks per beat, the duration estimator returns exactly
N * T / P / 1000000 seconds, the floating-point arithmetic of the source
modelled by exact rationals. -/
theorem ticks_to_seconds_single_segment (N T P : Nat) (hP : 0 < P) :
    ticks_to_seconds P N [(0, T)] =
      (N : ℚ) * (T : ℚ) / (P : ℚ) / 1000000 := by
  have hP' : (P : ℚ) ≠ 0 := by
    exact_mod_cast Nat.pos_iff_ne_zero.mp hP
  rcases Nat.eq_zero_or_pos N with hN | hN
  · subst hN
    simp [ticks_to_seconds, walk_segments]
  · simp only [ticks_to_seconds, walk_segments, hN, if_pos, Nat.sub_zero]
    unfold tick2second
    field_simp
    ring_nf
    exact Or.inl trivial

/-- Witness for C2 at N = 3, T = 500000, P = 2: the estimator returns
3 * 500000 / 2 / 1000000 seconds. -/
theorem ticks_to_seconds_single_segment_witness :
    ticks_to_seconds 2 3 [(0, 500000)] =
      (3 : ℚ) * (500000 : ℚ) / (2 : ℚ) / 1000000 :=
  ticks_to_seconds_single_segment 3 500000 2 (by decide)

/-- Scale-degree labels and their semitone offsets, identical in
src/wwm_macro.py and src/src/utils/wwm_macro.py. -/
def DEGREE_OFFSETS : List (String × Int) :=
  [("1", 0), ("#1", 1), ("2", 2), ("b3", 3), ("3", 4), ("4", 5),
   ("#4", 6), ("5", 7), ("#5", 8), ("6", 9), ("b7", 10), ("7", 11)]

/-- Per-register key combinations, identical in both macro modules, in
source iteration order. -/
def REGISTER_KEYS : List (String × List (String × String)) :=
  [("low",
    [("1", "Z"), ("#1", "Shift+Z"), ("2", "X"), ("b3", "Ctrl+C"),
     ("3", "C"), ("4", "V"), ("#4", "Shift+V"),
     ("5", "B"), ("#5", "Shift+B"), ("6", "N"), ("b7", "Ctrl+M"), ("7", "M")]),
   ("med",
    [("1", "A"), ("#1", "Shift+A"), ("2", "S"), ("b3", "Ctrl+D"),
     ("3", "D"), ("4", "F"), ("#4", "Shift+F"),
     ("5", "G"), ("#5", "Shift+G"), ("6", "H"), ("b7", "Ctrl+J"), ("7", "J")]),
   ("high",
    [("1", "Q"), ("#1", "Shift+Q"), ("2", "W"), ("b3", "Ctrl+E"),
     ("3", "E"), ("4", "R"), ("#4", "Shift+R"),
     ("5", "T"), ("#5", "Shift+T"), ("6", "Y"), ("b7", "Ctrl+U"), ("7", "U")])]

/-- Register base pitches: C3, C4, C5. -/
def BASE_NOTES : List (String × Int) := [("low", 48), ("med", 60), ("high", 72)]

def GLOBAL_SEMITONE_OFFSET : Int := 0

def MIN_NOTE : Int := 48

def MAX_NOTE : Int := 83

/-- build_map of the macro modules: for every register and degree, keep
base + offset when it lies in [MIN_NOTE, MAX_NOTE]; dict assignment keyed
by the computed pitch. -/
def build_map : List (Int × String) :=
  REGISTER_KEYS.foldl
    (fun mapping rk =>
      let base := ((dictGet BASE_NOTES rk.1).getD 0) + GLOBAL_SEMITONE_OFFSET
      rk.2.foldl
        (fun mapping dk =>
          let note := base + ((dictGet DEGREE_OFFSETS dk.1).getD 0)
          if MIN_NOTE ≤ note ∧ note ≤ MAX_NOTE
          then dictInsert mapping note dk.2 else mapping)
        mapping)
    []

/-- The process-wide note-to-key table NOTE_TO_WWM_KEY. -/
def NOTE_TO_WWM_KEY : List (Int × String) := build_map

/-- First loop of transpose_into_range: while note < MIN_NOTE, add 12. -/
def fold_up (note : Int) : Int :=
  if note < MIN_NOTE then fold_up (note + 12) else note
termination_by (MIN_NOTE - note).toNat
decreasing_by
  simp only [MIN_NOTE] at *
  omega

/-- Second loop of transpose_into_range: while note > MAX_NOTE, subtract 12. -/
def fold_down (note : Int) : Int :=
  if MAX_NOTE < note then fold_down (note - 12) else note
termination_by (note - MAX_NOTE).toNat
decreasing_by
  simp only [MAX_NOTE] at *
  omega

/-- transpose_into_range of the macro modules: the first while loop folds
the note up by octaves, the second folds it down. -/
def transpose_into_range (note : Int) : Int := fold_down (fold_up note)

theorem fold_up_ge (note : Int) : MIN_NOTE ≤ fold_up note := by
  induction note using fold_up.induct with
  | case1 n h ih => rw [fold_up, if_pos h]; exact ih
  | case2 n h => rw [fold_up, if_neg h]; omega

theorem fold_up_le (note : Int) (h83 : note ≤ MAX_NOTE) : fold_up note ≤ MAX_NOTE := by
  induction note using fold_up.induct with
  | case1 n h ih =>
      rw [fold_up, if_pos h]
      apply ih
      simp only [MIN_NOTE, MAX_NOTE] at *
      omega
  | case2 n h => rw [fold_up, if_neg h]; exact h83

theorem fold_down_le (note : Int) : fold_down note ≤ MAX_NOTE := by
  induction note using fold_down.induct with
  | case1 n h ih => rw [fold_down, if_pos h]; exact ih
  | case2 n h => rw [fold_down, if_neg h]; omega

theorem fold_down_ge (note : Int) (h48 : MIN_NOTE ≤ note) : MIN_NOTE ≤ fold_down note := by
  induction note using fold_down.induct with
  | case1 n h ih =>
      rw [fold_down, if_pos h]
      apply ih
      simp only [MIN_NOTE, MAX_NOTE] at *
      omega
  | case2 n h => rw [fold_down, if_neg h]; exact h48

theorem fold_up_id (note : Int) (h : MIN_NOTE ≤ note) : fold_up note = note := by
  rw [fold_up, if_neg (by omega)]

theorem fold_down_id (note : Int) (h : note ≤ MAX_NOTE) : fold_down note = note := by
  rw [fold_down, if_neg (by omega)]

/-- C3: transpose_into_range terminates on every integer pitch with a
value in [48, 83], and is the identity on pitches already in range. -/
theorem transpose_into_range_spec (p : Int) :
    (48 ≤ transpose_into_range p ∧ transpose_into_range p ≤ 83)
    ∧ (48 ≤ p → p ≤ 83 → transpose_into_range p = p) := by
  have hmin : MIN_NOTE = 48 := rfl
  have hmax : MAX_NOTE = 83 := rfl
  refine ⟨⟨?_, ?_⟩, ?_⟩
  · rw [← hmin]
    exact fold_down_ge _ (fold_up_ge p)
  · rw [← hmax]
    exact fold_down_le _
  · intro h1 h2
    rw [transpose_into_range, fold_up_id p (by omega), fold_down_id p (by omega)]

/-- Witness for C3: the pitch -5 is folded into [48, 83], and the
in-range pitch 60 is returned unchanged. -/
theorem transpose_into_range_spec_witness :
    (48 ≤ transpose_into_range (-5) ∧ transpose_into_range (-5) ≤ 83)
    ∧ transpose_into_range 60 = 60 :=
  ⟨(transpose_into_range_spec (-5)).1,
   (transpose_into_range_spec 60).2 (by decide) (by decide)⟩

theorem note_key_coverage :
    ∀ k : Nat, k < 36 → (dictGet NOTE_TO_WWM_KEY (48 + (k : Int))).isSome = true := by
  decide

theorem note_key_total (p : Int) (h1 : 48 ≤ p) (h2 : p ≤ 83) :
    (dictGet NOTE_TO_WWM_KEY p).isSome = true := by
  have hk : ((p - 48).toNat : Int) = p - 48 := Int.toNat_of_nonneg (by omega)
  have hlt : (p - 48).toNat < 36 := by omega
  have := note_key_coverage (p - 48).toNat hlt
  rwa [hk, show 48 + (p - 48) = p by ring] at this

/-- ASCII lower-casing of one character, as Python str.lower acts on the
key-combination strings of the table (they are pure ASCII). -/
def lowerChar (c : Char) : Char :=
  if 65 ≤ c.toNat ∧ c.toNat ≤ 90 then Char.ofNat (c.toNat + 32) else c

/-- ASCII lower-casing of a key-combination string. -/
def toLowerAscii (s : String) : String := String.mk (s.data.map lowerChar)

/-- play_note of the macro modules: look the folded pitch up in
NOTE_TO_WWM_KEY and, when a key combination is found, send it in lower
case; an unmapped pitch is silently dropped. -/
def play_note (note : Int) : List String :=
  match dictGet NOTE_TO_WWM_KEY (transpose_into_range note) with
  | some key => [toLowerAscii key]
  | none => []

/-- Evaluation rule for transpose_into_range on in-range pitches, usable
where kernel reduction cannot unfold the well-founded loops. -/
theorem transpose_into_range_eval (p : Int) (h1 : 48 ≤ p) (h2 : p ≤ 83) :
    transpose_into_range p = p := by
  have hmin : MIN_NOTE = 48 := rfl
  have hmax : MAX_NOTE = 83 := rfl
  rw [transpose_into_range, fold_up_id p (by omega), fold_down_id p (by omega)]

theorem play_note_total (note : Int) : ∃ key, play_note note = [key] := by
  have h1 := (fold_down_ge _ (fold_up_ge note) : MIN_NOTE ≤ transpose_into_range note)
  have h2 := (fold_down_le (fold_up note) : transpose_into_range note ≤ MAX_NOTE)
  have := note_key_total (transpose_into_range note) h1 h2
  rw [play_note]
  cases hget : dictGet NOTE_TO_WWM_KEY (transpose_into_range note) with
  | none => rw [hget] at this; simp at this
  | some key => exact ⟨toLowerAscii key, rfl⟩

/-- C10: the note-to-key table has an entry for every pitch of [48, 83],
so play_note finds a key combination for every integer pitch after
folding into range: the silent-drop branch is unreachable. -/
theorem note_key_table_complete :
    (∀ p : Int, 48 ≤ p → p ≤ 83 → (dictGet NOTE_TO_WWM_KEY p).isSome = true)
    ∧ (∀ p : Int, (play_note p).length = 1) := by
  refine ⟨note_key_total, fun p => ?_⟩
  obtain ⟨key, hkey⟩ := play_note_total p
  rw [hkey]
  rfl

/-- Witness for C10: the boundary pitches 48 and 83 are mapped, and
play_note emits exactly one keystroke for the out-of-range pitch 100. -/
theorem note_key_table_complete_witness :
    (dictGet NOTE_TO_WWM_KEY 48).isSome = true
    ∧ (dictGet NOTE_TO_WWM_KEY 83).isSome = true
    ∧ (play_note 100).length = 1 :=
  ⟨note_key_table_complete.1 48 (by decide) (by decide),
   note_key_table_complete.1 83 (by decide) (by decide),
   note_key_table_complete.2 100⟩

/-- Observable actions of the player: synthesizer calls made through the
fluidsynth handle, emitted keystrokes, and timed inter-note sleeps of the
standalone macro module. -/
inductive Effect : Type where
  | acquireSink : Effect
  | startDriver : Effect
  | programSelect : Effect
  | noteon : Nat → Nat → Nat → Effect
  | noteoff : Nat → Nat → Effect
  | cc : Nat → Nat → Nat → Effect
  | keystroke : String → Effect
  | sleep : ℚ → Effect
  | releaseSink : Effect
deriving DecidableEq

/-- Whether an effect is an inter-note sleep. -/
def isSleep : Effect → Bool
  | Effect.sleep _ => true
  | _ => false

/-- The roll delay of play_chord in src/wwm_macro.py:
max(0.01, 0.1 - (velocity / 127.0) * 0.08), floats modelled by rationals. -/
def roll_delay (velocity : ℚ) : ℚ :=
  max (0.01 : ℚ) ((0.1 : ℚ) - velocity / (127.0 : ℚ) * (0.08 : ℚ))

namespace Wwm

/-- play_chord of the standalone module src/wwm_macro.py: for each note,
play it and sleep for the velocity-derived roll delay. -/
def play_chord (notes : List Int) (velocity : ℚ) : List Effect :=
  notes.flatMap
    (fun n => (play_note n).map Effect.keystroke ++ [Effect.sleep (roll_delay velocity)])

end Wwm

namespace WwmUtils

/-- play_chord of src/src/utils/wwm_macro.py, the variant imported by
src/app.py: it plays each note back to back, with no velocity argument
and no inter-note delay. -/
def play_chord (notes : List Int) : List Effect :=
  notes.flatMap (fun n => (play_note n).map Effect.keystroke)

end WwmUtils

/-- Accumulate the sleep time since the last keystroke; on each
keystroke, emit the accumulated gap and reset it.  Effects other than
keystrokes and sleeps do not affect the gaps. -/
def gapsAux : List Effect → ℚ → List ℚ
  | [], _ => []
  | Effect.sleep d :: rest, acc => gapsAux rest (acc + d)
  | Effect.keystroke _ :: rest, acc => acc :: gapsAux rest 0
  | _ :: rest, acc => gapsAux rest acc

/-- The sleep time between each pair of consecutive keystrokes of an
effect list: all gaps except the one preceding the first keystroke. -/
def keyGaps (l : List Effect) : List ℚ := (gapsAux l 0).tail

theorem gapsAux_play_chord (v : ℚ) :
    ∀ (notes : List Int) (acc : ℚ),
      gapsAux (Wwm.play_chord notes v) acc =
        match notes with
        | [] => []
        | _ :: rest => acc :: List.replicate rest.length (roll_delay v) := by
  intro notes
  induction notes with
  | nil => intro acc; rfl
  | cons n rest ih =>
      intro acc
      obtain ⟨key, hkey⟩ := play_note_total n
      have hexp : Wwm.play_chord (n :: rest) v =
          Effect.keystroke key :: Effect.sleep (roll_delay v) :: Wwm.play_chord rest v := by
        simp [Wwm.play_chord, hkey]
      rw [hexp]
      show (acc :: gapsAux (Wwm.play_chord rest v) (0 + roll_delay v)) = _
      rw [zero_add, ih (roll_delay v)]
      cases rest with
      | nil => rfl
      | cons m r => simp [List.replicate_succ]

theorem keyGaps_play_chord (notes : List Int) (v : ℚ) :
    keyGaps (Wwm.play_chord notes v) =
      List.replicate (notes.length - 1) (roll_delay v) := by
  rw [keyGaps, gapsAux_play_chord]
  cases notes with
  | nil => rfl
  | cons n rest => simp

theorem roll_delay_antitone (v₁ v₂ : ℚ) (h : v₁ ≤ v₂) :
    roll_delay v₂ ≤ roll_delay v₁ := by
  unfold roll_delay
  apply max_le_max (le_refl _)
  have h1 : v₁ / (127.0 : ℚ) * (0.08 : ℚ) ≤ v₂ / (127.0 : ℚ) * (0.08 : ℚ) := by
    rw [div_mul_eq_mul_div, div_mul_eq_mul_div]
    apply div_le_div_of_nonneg_right ?_ (by norm_num)
    nlinarith
  linarith

theorem utils_play_chord_no_sleep (notes : List Int) :
    ∀ e ∈ WwmUtils.play_chord notes, isSleep e = false := by
  intro e he
  rw [WwmUtils.play_chord] at he
  simp only [List.mem_flatMap, List.mem_map] at he
  obtain ⟨n, _, s, _, rfl⟩ := he
  rfl

/-- Counterexample to C9: the macro sink the app actually uses
(play_chord of src/src/utils/wwm_macro.py) emits the keystrokes of the
chord [60, 64] back to back with zero inter-keystroke gap and no sleep at
all, while the claimed velocity-90 roll delay is nonzero. -/
theorem play_chord_roll_delay_counterexample :
    WwmUtils.play_chord [60, 64] = [Effect.keystroke "a", Effect.keystroke "d"]
    ∧ keyGaps (WwmUtils.play_chord [60, 64]) = [0]
    ∧ roll_delay 90 ≠ 0 := by
  have h60 : play_note 60 = ["a"] := by
    rw [play_note, transpose_into_range_eval 60 (by decide) (by decide)]
    decide
  have h64 : play_note 64 = ["d"] := by
    rw [play_note, transpose_into_range_eval 64 (by decide) (by decide)]
    decide
  have hlist : WwmUtils.play_chord [60, 64] =
      [Effect.keystroke "a", Effect.keystroke "d"] := by
    simp [WwmUtils.play_chord, h60, h64]
  refine ⟨hlist, by rw [hlist]; rfl, by norm_num [roll_delay]⟩

/-- C9 amended: the roll delay max(0.01, 0.1 - (v / 127) * 0.08) is
implemented only by play_chord of the standalone module src/wwm_macro.py,
which spaces consecutive keystrokes by exactly that delay; the delay is
non-increasing in velocity; the play_chord imported by the app from
src/src/utils/wwm_macro.py emits no inter-note delay at all. -/
theorem play_chord_roll_delay_amended :
    (∀ (notes : List Int) (v : ℚ),
       keyGaps (Wwm.play_chord notes v) =
         List.replicate (notes.length - 1) (roll_delay v))
    ∧ (∀ v₁ v₂ : ℚ, v₁ ≤ v₂ → roll_delay v₂ ≤ roll_delay v₁)
    ∧ (∀ notes : List Int, ∀ e ∈ WwmUtils.play_chord notes, isSleep e = false) :=
  ⟨keyGaps_play_chord, roll_delay_antitone, utils_play_chord_no_sleep⟩

/-- Witness for the amended C9: the standalone play_chord spaces the
two keystrokes of [60, 64] by one roll delay, velocity 90 strums no
slower than velocity 50, and the first keystroke the app sink emits for
[60] is not a sleep. -/
theorem play_chord_roll_delay_amended_witness :
    keyGaps (Wwm.play_chord [60, 64] 90) = [roll_delay 90]
    ∧ roll_delay 90 ≤ roll_delay 50
    ∧ isSleep (Effect.keystroke "a") = false :=
  ⟨play_chord_roll_delay_amended.1 [60, 64] 90,
   play_chord_roll_delay_amended.2.1 50 90 (by norm_num),
   play_chord_roll_delay_amended.2.2 [60] (Effect.keystroke "a")
     (by
       have h60 : play_note 60 = ["a"] := by
         rw [play_note, transpose_into_range_eval 60 (by decide) (by decide)]
         decide
       simp [WwmUtils.play_chord, h60])⟩

/-- Worker.__add_note: a note_on with positive velocity is appended to
the chord lists; a note_off is forwarded to the synthesizer immediately,
in audio mode only; anything else is ignored.  The state is
(chord_notes, velocities, effects emitted so far). -/
def add_note (is_audio : Bool) (st : List Nat × List Nat × List Effect)
    (msg : Msg) : List Nat × List Nat × List Effect :=
  if msg.type == "note_on" && decide (0 < msg.velocity)
  then (st.1 ++ [msg.note], st.2.1 ++ [msg.velocity], st.2.2)
  else if msg.type == "note_off" && is_audio
  then (st.1, st.2.1, st.2.2 ++ [Effect.noteoff 0 msg.note])
  else st

/-- The representative chord velocity of Worker.__flush_tick_events:
Python max(velocities) if velocities else 64. -/
def chord_velocity : List Nat → Nat
  | [] => 64
  | v :: vs => vs.foldl max v

/-- Worker.__flush_tick_events: run add_note over the batched events,
then, if the chord is non-empty, emit the chord at the representative
velocity followed by the volume controller in audio mode, or hand the
chord to the macro play_chord otherwise. -/
def flush_tick_events (is_audio : Bool) (volume : Nat)
    (tick_events : List Msg) : List Effect :=
  if tick_events.isEmpty then []
  else
    match tick_events.foldl (add_note is_audio) ([], [], []) with
    | (chord_notes, velocities, fx) =>
      if !chord_notes.isEmpty then
        if is_audio then
          fx ++ chord_notes.map (fun n => Effect.noteon 0 n (chord_velocity velocities))
            ++ [Effect.cc 0 7 volume]
        else fx ++ WwmUtils.play_chord (chord_notes.map Int.ofNat)
      else fx

/-- C4: aggregating NoteOn(60, v=50) and NoteOn(64, v=90) in one flushed
batch yields the chord with pitch set 60, 64 and representative velocity
90, the maximum of the aggregated velocities, and the audio flush emits
both pitches at velocity 90. -/
theorem chord_aggregation_example :
    ((([⟨"note_on", 60, 50, 0, 0⟩, ⟨"note_on", 64, 90, 0, 0⟩] : List Msg).foldl
        (add_note true) ([], [], [])).1).toFinset = ({60, 64} : Finset Nat)
    ∧ chord_velocity
        ((([⟨"note_on", 60, 50, 0, 0⟩, ⟨"note_on", 64, 90, 0, 0⟩] : List Msg).foldl
          (add_note true) ([], [], [])).2.1) = 90
    ∧ flush_tick_events true 100 [⟨"note_on", 60, 50, 0, 0⟩, ⟨"note_on", 64, 90, 0, 0⟩]
        = [Effect.noteon 0 60 90, Effect.noteon 0 64 90, Effect.cc 0 7 100] := by
  refine ⟨by decide, by decide, by decide⟩

/-- One event of the played stream, together with an environment flag
recording whether processing that event raises an exception (abstracting
synthesizer or keyboard failures inside the scheduling loop). -/
structure PlayEvent where
  msg : Msg
  raises : Bool
deriving DecidableEq

/-- The outcome of mido.MidiFile(filename) at the top of Worker.run:
the file decodes, or decoding raises the KeySignatureError that the
except clause catches, or decoding raises some other structural
exception (mido raises e.g. OSError for a missing MThd header and
EOFError for a truncated file), which no handler in run catches. -/
inductive DecodeResult : Type where
  | ok : DecodeResult
  | keySignatureError : DecodeResult
  | otherError : DecodeResult
deriving DecidableEq

/-- The input of one Worker.run call: the decode outcome of
mido.MidiFile(filename), and the event stream that player.play() would
yield when it decodes. -/
structure RunInput where
  decode : DecodeResult
  events : List PlayEvent
deriving DecidableEq

/-- The observable outcome of Worker.run: the final error flag, the
effects emitted in order, and whether the run was terminated by an
uncaught exception propagating out of the loop. -/
structure RunResult where
  error : Bool
  effects : List Effect
  exn : Bool
deriving DecidableEq

/-- The scheduling loop of Worker.run.  Timing (pause polling and the
spin wait) is elided: it emits no effect.  The running flag is sampled
once per event through the running schedule, as the loop does at its
top; a raising event aborts the loop with the exception flag set.
Returns (effects, exception flag, remaining tick_events). -/
def runLoop (is_audio : Bool) (volume : Nat) (running : Nat → Bool) :
    Nat → List Msg → List PlayEvent → List Effect × Bool × List Msg
  | _, tick_events, [] => ([], false, tick_events)
  | i, tick_events, e :: rest =>
      if !(running i) then ([], false, tick_events)
      else if e.raises then ([], true, tick_events)
      else
        let tick_events' :=
          if e.msg.type == "note_on" || e.msg.type == "note_off"
          then tick_events ++ [e.msg] else tick_events
        let fx := flush_tick_events is_audio volume tick_events'
        let post := if is_audio then [Effect.cc 0 7 volume] else []
        let r := runLoop is_audio volume running (i + 1) [] rest
        (fx ++ post ++ r.1, r.2.1, r.2.2)

/-- Worker.run: the try/except around mido.MidiFile catches only
KeySignatureError, setting the error flag and returning before any
synthesizer object exists; any other decode exception propagates
uncaught, likewise before the synthesizer exists, but with the error
flag still false.  On a successful decode, acquire the synthesizer (and
start the driver and select the program in audio mode), run the loop,
and, unless an exception escaped the loop, flush the remaining events
and delete the synthesizer.  There is no handler around the loop, so an
escaping exception skips the final flush and the delete. -/
def run (is_audio : Bool) (volume : Nat) (running : Nat → Bool)
    (input : RunInput) : RunResult :=
  match input.decode with
  | DecodeResult.keySignatureError => { error := true, effects := [], exn := false }
  | DecodeResult.otherError => { error := false, effects := [], exn := true }
  | DecodeResult.ok =>
    let pre := Effect.acquireSink ::
      (if is_audio then [Effect.startDriver, Effect.programSelect] else [])
    let r := runLoop is_audio volume running 0 [] input.events
    if r.2.1 then { error := false, effects := pre ++ r.1, exn := true }
    else { error := false,
           effects := pre ++ r.1 ++ flush_tick_events is_audio volume r.2.2
             ++ [Effect.releaseSink],
           exn := false }

/-- Counterexample to C7: a file whose decoding raises a structural
exception other than KeySignatureError (e.g. an OSError for a missing
MThd header) terminates the run with the error state still false,
because the except clause of Worker.run catches only KeySignatureError;
the claim says every structural decode error sets the error state. -/
theorem decode_error_counterexample :
    (run false 100 (fun _ => true)
      { decode := DecodeResult.otherError, events := [] }).error = false
    ∧ (run false 100 (fun _ => true)
      { decode := DecodeResult.otherError, events := [] }).effects = []
    ∧ (run false 100 (fun _ => true)
      { decode := DecodeResult.otherError, events := [] }).exn = true :=
  ⟨rfl, rfl, rfl⟩

/-- C7 amended: a file whose decoding fails never reaches sink
acquisition and emits no note and no keystroke; the error state is set
to true exactly when the decode failure is the caught
KeySignatureError, while any other structural decode exception
propagates uncaught with the error state still false. -/
theorem decode_error_no_sink (is_audio : Bool) (volume : Nat)
    (running : Nat → Bool) (events : List PlayEvent) :
    run is_audio volume running
        { decode := DecodeResult.keySignatureError, events := events } =
      { error := true, effects := [], exn := false }
    ∧ run is_audio volume running
        { decode := DecodeResult.otherError, events := events } =
      { error := false, effects := [], exn := true } :=
  ⟨rfl, rfl⟩

/-- The number of synthesizer releases in an effect list. -/
def releaseCount (l : List Effect) : Nat :=
  l.countP (fun e => decide (e = Effect.releaseSink))

theorem releaseCount_append (l1 l2 : List Effect) :
    releaseCount (l1 ++ l2) = releaseCount l1 + releaseCount l2 := by
  simp [releaseCount, List.countP_append]

theorem releaseCount_eq_zero_of_not_mem (l : List Effect)
    (h : Effect.releaseSink ∉ l) : releaseCount l = 0 := by
  rw [releaseCount, List.countP_eq_zero]
  intro a ha
  simp only [decide_eq_true_eq]
  intro heq
  exact h (heq ▸ ha)

theorem utils_play_chord_keystrokes (notes : List Int) :
    ∀ e ∈ WwmUtils.play_chord notes, ∃ s, e = Effect.keystroke s := by
  intro e he
  rw [WwmUtils.play_chord] at he
  simp only [List.mem_flatMap, List.mem_map] at he
  obtain ⟨n, _, s, _, rfl⟩ := he
  exact ⟨s, rfl⟩

theorem add_note_foldl_no_release (a : Bool) (te : List Msg) :
    ∀ st : List Nat × List Nat × List Effect,
      Effect.releaseSink ∉ st.2.2 →
      Effect.releaseSink ∉ (te.foldl (add_note a) st).2.2 := by
  induction te with
  | nil => intro st h; simpa using h
  | cons m rest ih =>
      intro st h
      simp only [List.foldl_cons]
      apply ih
      unfold add_note
      split
      · simpa using h
      · split
        · simp only [List.mem_append, List.mem_singleton]
          rintro (hmem | heq)
          · exact h hmem
          · exact Effect.noConfusion heq
        · exact h

theorem flush_no_release (a : Bool) (v : Nat) (te : List Msg) :
    Effect.releaseSink ∉ flush_tick_events a v te := by
  have h0 := add_note_foldl_no_release a te ([], [], []) (by simp)
  rw [flush_tick_events]
  split
  · simp
  · cases hst : te.foldl (add_note a) ([], [], []) with
    | mk chord_notes vfx =>
        cases vfx with
        | mk velocities fx =>
            rw [hst] at h0
            simp only at h0
            dsimp only
            split
            · split
              · intro hmem
                rcases List.mem_append.mp hmem with h1 | h2
                · rcases List.mem_append.mp h1 with h3 | h4
                  · exact h0 h3
                  · obtain ⟨n, _, heq⟩ := List.mem_map.mp h4
                    exact Effect.noConfusion heq
                · rw [List.mem_singleton] at h2
                  exact Effect.noConfusion h2
              · intro hmem
                rcases List.mem_append.mp hmem with h1 | h2
                · exact h0 h1
                · obtain ⟨s, hs⟩ := utils_play_chord_keystrokes _ _ h2
                  exact Effect.noConfusion hs
            · exact h0

theorem runLoop_no_release (a : Bool) (v : Nat) (running : Nat → Bool) :
    ∀ (events : List PlayEvent) (i : Nat) (te : List Msg),
      Effect.releaseSink ∉ (runLoop a v running i te events).1 := by
  intro events
  induction events with
  | nil => intro i te; simp [runLoop]
  | cons e rest ih =>
      intro i te
      rw [runLoop]
      split
      · simp
      · split
        · simp
        · dsimp only
          intro hmem
          rcases List.mem_append.mp hmem with h1 | h2
          · rcases List.mem_append.mp h1 with h3 | h4
            · exact flush_no_release _ _ _ h3
            · revert h4
              split <;> simp
          · exact ih _ _ h2

theorem runLoop_exn_false (a : Bool) (v : Nat) (running : Nat → Bool) :
    ∀ (events : List PlayEvent), (∀ e ∈ events, e.raises = false) →
      ∀ (i : Nat) (te : List Msg),
        (runLoop a v running i te events).2.1 = false := by
  intro events
  induction events with
  | nil => intro _ i te; simp [runLoop]
  | cons e rest ih =>
      intro hall i te
      rw [runLoop]
      split
      · rfl
      · split
        · rename_i hr
          rw [hall e (List.mem_cons_self e rest)] at hr
          exact absurd hr (by simp)
        · dsimp only
          exact ih (fun x hx => hall x (List.mem_cons_of_mem e hx)) _ _

/-- Counterexample to C8: with a decodable file and an exception raised
while processing the first event of the loop, the sink is acquired and
the run terminates by the escaping exception with the sink never
released, because no handler around the loop of Worker.run reaches
synth.delete(). -/
theorem run_release_counterexample :
    Effect.acquireSink ∈
      (run false 100 (fun _ => true)
        { decode := DecodeResult.ok,
          events := [{ msg := ⟨"note_on", 60, 90, 0, 0⟩, raises := true }] }).effects
    ∧ releaseCount
        (run false 100 (fun _ => true)
          { decode := DecodeResult.ok,
            events := [{ msg := ⟨"note_on", 60, 90, 0, 0⟩, raises := true }] }).effects = 0
    ∧ (run false 100 (fun _ => true)
        { decode := DecodeResult.ok,
          events := [{ msg := ⟨"note_on", 60, 90, 0, 0⟩, raises := true }] }).exn = true := by
  refine ⟨by decide, by decide, by decide⟩

/-- C8 amended: after the sink has been acquired, the run releases it
exactly once on normal completion and on cancellation via stop (any
running schedule, provided no exception is raised in the loop); a run
terminated by an escaping exception releases the sink zero times. -/
theorem run_releases_sink_amended (a : Bool) (v : Nat) (running : Nat → Bool)
    (events : List PlayEvent) :
    ((∀ e ∈ events, e.raises = false) →
      releaseCount (run a v running { decode := DecodeResult.ok, events := events }).effects = 1)
    ∧ ((run a v running { decode := DecodeResult.ok, events := events }).exn = true →
      releaseCount (run a v running { decode := DecodeResult.ok, events := events }).effects = 0) := by
  have hpre : releaseCount (Effect.acquireSink ::
      (if a then [Effect.startDriver, Effect.programSelect] else [])) = 0 := by
    cases a <;> rfl
  have hloop := releaseCount_eq_zero_of_not_mem _ (runLoop_no_release a v running events 0 [])
  have hrun : run a v running { decode := DecodeResult.ok, events := events } =
      (if (runLoop a v running 0 [] events).2.1 then
        { error := false,
          effects := (Effect.acquireSink ::
            (if a then [Effect.startDriver, Effect.programSelect] else []))
            ++ (runLoop a v running 0 [] events).1,
          exn := true }
       else
        { error := false,
          effects := (Effect.acquireSink ::
            (if a then [Effect.startDriver, Effect.programSelect] else []))
            ++ (runLoop a v running 0 [] events).1
            ++ flush_tick_events a v (runLoop a v running 0 [] events).2.2
            ++ [Effect.releaseSink],
          exn := false }) := rfl
  constructor
  · intro hall
    have hexn := runLoop_exn_false a v running events hall 0 []
    rw [hrun, hexn]
    simp only [Bool.false_eq_true, if_false]
    rw [releaseCount_append, releaseCount_append, releaseCount_append]
    rw [hpre, hloop,
        releaseCount_eq_zero_of_not_mem _ (flush_no_release a v _)]
    rfl
  · intro hexn
    cases hr : (runLoop a v running 0 [] events).2.1 with
    | false =>
        exfalso
        rw [hrun, hr] at hexn
        simp at hexn
    | true =>
        rw [hrun, hr]
        simp only [if_true]
        rw [releaseCount_append, hpre, hloop]

/-- Witness for the amended C8: an empty event stream with the running
flag held true completes normally and releases the sink exactly once. -/
theorem run_releases_sink_amended_witness :
    releaseCount
      (run false 100 (fun _ => true) { decode := DecodeResult.ok, events := [] }).effects = 1 :=
  (run_releases_sink_amended false 100 (fun _ => true) []).1 (by simp)
